import Mathlib

/-
Verification development for the container linear-algebra dispatch layer
(ivy/container/linear_algebra.py).

The file under src/ is a thin dispatch layer: each public linear-algebra
method forwards to the generic multi-container mapping utility
ContainerBase.cont_multi_map_in_function, which lives in ivy/container/base.py
and is not part of the sources provided.  Following the specification, the
mapping engine, the Container data model and the numeric backend are
modelled from the spec (each such definition is marked in its doc comment),
while the wrapper methods themselves are translated directly from
ivy/container/linear_algebra.py.
-/

namespace IvyLA

/-- Modelled from the spec: a LeafArray is an opaque handle to a numeric
array owned by the external backend.  The scenarios of the spec use integer
matrices and scalar results, so a leaf value is either a scalar or a matrix
of integers. -/
inductive Arr where
  | scalar (z : Int)
  | matrix (m : List (List Int))
deriving DecidableEq

/-- Modelled from the spec: a Path is the sequence of keys locating a value
inside nested Containers. -/
abbrev Path := List String

/-- Modelled from the spec: a Container is a nested, ordered mapping from
string keys to values, where a value is either a leaf array or another
Container.  The ordered list of items of one mapping level is encoded by
the nil and cons constructors; the leaf constructor is a value position
holding a bare array. -/
inductive Container where
  | leaf (a : Arr)
  | nil
  | cons (k : String) (v : Container) (rest : Container)
deriving DecidableEq

/-- Modelled from the spec: a secondary positional argument of a mapping
call is either a Container, matched leaf-by-leaf against the primary, or a
plain array broadcast as-is to every leaf. -/
inductive SecOp where
  | arr (a : Arr)
  | cont (c : Container)
deriving DecidableEq

/-- Modelled from the spec: the error taxonomy of the mapping engine.
KeyMismatchError names the failing path; OutputShapeError reports an
incompatible supplied output; backend errors are opaque passthroughs.
The typeError constructor records a Python TypeError raised before any
dispatch happens (wrong arity at a call site). -/
inductive Err where
  | keyMismatch (p : Path)
  | outputShape
  | backendError (fn : String)
  | typeError (msg : String)
deriving DecidableEq

/-- Keyword arguments forwarded verbatim to the backend at every leaf;
booleans are encoded as 0 or 1. -/
abbrev Kw := List (String × Int)

/-- Modelled from the spec: the backend operation registry is a lookup from
operation name to a callable taking the primary leaf, the secondary leaves
and the keyword arguments, returning a replacement leaf or an error. -/
abbrev Backend := String → Kw → Arr → List Arr → Except Err Arr

def b2i (b : Bool) : Int := if b then 1 else 0

def kwGet : Kw → String → Int → Int
  | [], _, d => d
  | (k, v) :: rest, k', d => if k = k' then v else kwGet rest k' d

/-- Transpose of a rectangular integer matrix. -/
def transposeM (m : List (List Int)) : List (List Int) :=
  (List.range (m.headD []).length).map (fun j => m.map (fun row => row.getD j 0))

def dotL (r c : List Int) : Int := (List.zipWith (fun x y => x * y) r c).sum

/-- Matrix product of two integer matrices. -/
def matMul (m1 m2 : List (List Int)) : List (List Int) :=
  m1.map (fun r => (transposeM m2).map (fun c => dotL r c))

/-- Sum along the diagonal of a matrix with the given offset from the main
diagonal. -/
def traceM (m : List (List Int)) (off : Int) : Int :=
  ((List.range m.length).map (fun i =>
    let j : Int := Int.ofNat i + off
    if j < 0 then 0 else (m.getD i []).getD j.toNat 0)).sum

/-- Modelled from the spec: the numeric backend is an external collaborator
treated as a black box; only the operations exercised by the specification
scenarios (matmul, trace, matrix_transpose) and the identity operation of
the testable properties are given concrete semantics.  Every other
operation name reports an opaque backend error. -/
def ivyBackend : Backend := fun fn kw a secs =>
  match fn, a, secs with
  | "identity", a, [] => .ok a
  | "matmul", .matrix m1, [.matrix m2] =>
      let a1 := if kwGet kw "transpose_a" 0 = 0 ∧ kwGet kw "adjoint_a" 0 = 0
                then m1 else transposeM m1
      let a2 := if kwGet kw "transpose_b" 0 = 0 ∧ kwGet kw "adjoint_b" 0 = 0
                then m2 else transposeM m2
      .ok (.matrix (matMul a1 a2))
  | "matrix_transpose", .matrix m, [] => .ok (.matrix (transposeM m))
  | "trace", .matrix m, [] =>
      if kwGet kw "axis1" 0 = 0 ∧ kwGet kw "axis2" 1 = 1
      then .ok (.scalar (traceM m (kwGet kw "offset" 0)))
      else .error (.backendError "trace")
  | fn, _, _ => .error (.backendError fn)

/-- A stub backend whose every operation returns the primary leaf
unchanged; it never fails. -/
def okBackend : Backend := fun _ _ a _ => .ok a

def Container.isLeaf : Container → Bool
  | .leaf _ => true
  | _ => false

/-- First entry stored under the given key at the top level of a
container. -/
def lookupKey : Container → String → Option Container
  | .cons k v rest, k' => if k = k' then some v else lookupKey rest k'
  | _, _ => none

/-- Value reached by following a path of keys from the root. -/
def lookupPath : Container → Path → Option Container
  | c, [] => some c
  | c, k :: p =>
      match lookupKey c k with
      | some e => lookupPath e p
      | none => none

/-- Leaf array stored at a path, when the path ends at a leaf. -/
def leafAt (c : Container) (p : Path) : Option Arr :=
  match lookupPath c p with
  | some (.leaf a) => some a
  | _ => none

/-- Keys of the top level of a container, in order. -/
def keysOf : Container → List String
  | .cons k _ rest => k :: keysOf rest
  | _ => []

/-- Paths of all leaves of a container, in traversal order. -/
def leafPaths : Container → List Path
  | .leaf _ => [[]]
  | .nil => []
  | .cons k v rest => (leafPaths v).map (fun p => k :: p) ++ leafPaths rest

/-- All key paths of a container (intermediate and leaf), in traversal
order. -/
def allPaths : Container → List Path
  | .leaf _ => []
  | .nil => []
  | .cons k v rest => [k] :: (allPaths v).map (fun p => k :: p) ++ allPaths rest

/-- A container whose top level is a mapping (not a bare leaf). -/
def isMap : Container → Bool
  | .leaf _ => false
  | _ => true

/-- Well-formed container: keys are unique within one mapping level and the
tail of every level is again a mapping level. -/
def wfC : Container → Bool
  | .leaf _ => true
  | .nil => true
  | .cons k v rest =>
      !((keysOf rest).contains k) && wfC v && wfC rest && isMap rest

/-- Modelled from the spec: the selector decides, for a path, whether the
operation applies there.  With no key-chain list it applies everywhere;
with a list P and to_apply true it applies only at paths in P; with
to_apply false it applies everywhere except the paths in P. -/
def shouldApply (kc : Option (List Path)) (ta : Bool) (p : Path) : Bool :=
  match kc with
  | none => true
  | some P => if ta then decide (p ∈ P) else !(decide (p ∈ P))

/-- Leaves contributed by the secondaries at a primary leaf position: a
broadcast array passes through, a container secondary must have been
localized to a leaf, otherwise the structures clash. -/
def secLeaves : List SecOp → Option (List Arr)
  | [] => some []
  | .arr a :: rest => (secLeaves rest).map (fun l => a :: l)
  | .cont (.leaf a) :: rest => (secLeaves rest).map (fun l => a :: l)
  | .cont _ :: _ => none

/-- Localization of the secondaries at a key: container secondaries step
into their entry at the key (none when a container secondary lacks the
key), broadcast arrays pass through unchanged. -/
def localize : List SecOp → String → Option (List SecOp)
  | [], _ => some []
  | .arr a :: rest, k => (localize rest k).map (fun l => .arr a :: l)
  | .cont c :: rest, k =>
      match lookupKey c k with
      | some e => (localize rest k).map (fun l => .cont e :: l)
      | none => none

/-- Result contributed by a position where the operation was not applied:
the original value is copied through, or omitted when pruning. -/
def skipRes (pu : Bool) (c : Container) : Option Container :=
  if pu then none else some c

/-- Reassembly of one mapping level from the processed value of the first
key (none when pruned) and the processed rest of the level. -/
def consRes (k : String) (ov : Option Container) (orest : Option Container) :
    Container :=
  match ov with
  | none => orest.getD .nil
  | some v' => .cons k v' (orest.getD .nil)

/-- Modelled from the spec: the recursive traversal of the mapping engine.
It walks the primary container, localizing the secondaries in lockstep,
and returns the mapped container (none when a pruned leaf vanished)
together with the list of applied writes, path by path.  A missing key of
a required (to_apply true) container secondary raises KeyMismatchError
naming that path; with to_apply false the path is skipped silently.
Sequences are not modelled, so the map_sequences flag is carried but has
no effect. -/
def mmApply (B : Backend) (fn : String) (kw : Kw) (kc : Option (List Path))
    (ta pu ms : Bool) :
    Path → Container → List SecOp → Except Err (Option Container × List (Path × Arr))
  | pre, .leaf a, secs =>
      if shouldApply kc ta pre then
        match secLeaves secs with
        | some leaves =>
            match B fn kw a leaves with
            | .ok r => .ok (some (.leaf r), [(pre, r)])
            | .error e => .error e
        | none =>
            if ta then .error (.keyMismatch pre) else .ok (skipRes pu (.leaf a), [])
      else .ok (skipRes pu (.leaf a), [])
  | _, .nil, _ => .ok (some .nil, [])
  | pre, .cons k v rest, secs =>
      match localize secs k with
      | none =>
          if ta then .error (.keyMismatch (pre ++ [k]))
          else
            match mmApply B fn kw kc ta pu ms pre rest secs with
            | .ok (orest, wr) => .ok (some (consRes k (skipRes pu v) orest), wr)
            | .error e => .error e
      | some secs' =>
          match mmApply B fn kw kc ta pu ms (pre ++ [k]) v secs' with
          | .ok (ov, wv) =>
              match mmApply B fn kw kc ta pu ms pre rest secs with
              | .ok (orest, wr) => .ok (some (consRes k ov orest), wv ++ wr)
              | .error e => .error e
          | .error e => .error e

/-- Shape compatibility of a computed leaf with the leaf slot it overwrites
in a supplied output container. -/
def compatible : Arr → Arr → Bool
  | .scalar _, .scalar _ => true
  | .matrix m1, .matrix m2 => m1.map List.length == m2.map List.length
  | _, _ => false

/-- Modelled from the spec: in-place write of a computed leaf into the leaf
slot of the output container at a path; a missing or incompatible slot is
an OutputShapeError. -/
def setAt : Container → Path → Arr → Except Err Container
  | .leaf old, [], a =>
      if compatible old a then .ok (.leaf a) else .error .outputShape
  | .nil, [], _ => .error .outputShape
  | .cons _ _ _, [], _ => .error .outputShape
  | .leaf _, _ :: _, _ => .error .outputShape
  | .nil, _ :: _, _ => .error .outputShape
  | .cons k v rest, k' :: p, a =>
      if k = k' then
        match setAt v p a with
        | .ok v' => .ok (.cons k v' rest)
        | .error e => .error e
      else
        match setAt rest (k' :: p) a with
        | .ok rest' => .ok (.cons k v rest')
        | .error e => .error e

/-- All applied writes performed in place on the supplied output
container, in traversal order. -/
def writeAll : Container → List (Path × Arr) → Except Err Container
  | o, [] => .ok o
  | o, (p, a) :: w =>
      match setAt o p a with
      | .ok o' => writeAll o' w
      | .error e => .error e

/-- Modelled from the spec: the generic multi-container mapping utility
ContainerBase.cont_multi_map_in_function of ivy/container/base.py, which is
not part of the provided sources.  It maps the named backend operation over
the primary container and the secondaries in lockstep; when an output
container is supplied, the applied results are written into it in place and
the same (mutated) output is returned. -/
def cont_multi_map_in_function (B : Backend) (fn : String) (kw : Kw)
    (x : Container) (secondaries : List SecOp) (key_chains : Option (List Path))
    (to_apply prune_unapplied map_sequences : Bool) (out : Option Container) :
    Except Err Container :=
  match mmApply B fn kw key_chains to_apply prune_unapplied map_sequences
      [] x secondaries with
  | .error e => .error e
  | .ok (res, w) =>
      match out with
      | none => .ok (res.getD .nil)
      | some o => writeAll o w

/-- Embedding of ContainerWithLinearAlgebra.static_matmul: forwards to
cont_multi_map_in_function with operation name matmul, passing the
transpose and adjoint flags and the full set of control parameters. -/
def static_matmul (x1 : Container) (x2 : SecOp)
    (transpose_a transpose_b adjoint_a adjoint_b : Bool)
    (key_chains : Option (List Path)) (to_apply prune_unapplied map_sequences : Bool)
    (out : Option Container) : Except Err Container :=
  cont_multi_map_in_function ivyBackend "matmul"
    [("transpose_a", b2i transpose_a), ("transpose_b", b2i transpose_b),
     ("adjoint_a", b2i adjoint_a), ("adjoint_b", b2i adjoint_b)]
    x1 [x2] key_chains to_apply prune_unapplied map_sequences out

/-- Embedding of the matmul instance method: forwards to static_matmul with
self as the primary container. -/
def matmul (self : Container) (x2 : SecOp)
    (transpose_a transpose_b adjoint_a adjoint_b : Bool)
    (key_chains : Option (List Path)) (to_apply prune_unapplied map_sequences : Bool)
    (out : Option Container) : Except Err Container :=
  static_matmul self x2 transpose_a transpose_b adjoint_a adjoint_b
    key_chains to_apply prune_unapplied map_sequences out

/-- Embedding of ContainerWithLinearAlgebra.static_trace: forwards to
cont_multi_map_in_function with operation name trace, passing offset,
axis1, axis2 and the full set of control parameters. -/
def static_trace (x : Container) (offset axis1 axis2 : Int)
    (key_chains : Option (List Path)) (to_apply prune_unapplied map_sequences : Bool)
    (out : Option Container) : Except Err Container :=
  cont_multi_map_in_function ivyBackend "trace"
    [("offset", offset), ("axis1", axis1), ("axis2", axis2)]
    x [] key_chains to_apply prune_unapplied map_sequences out

/-- Embedding of the trace instance method: forwards to static_trace with
self as the primary container. -/
def trace (self : Container) (offset axis1 axis2 : Int)
    (key_chains : Option (List Path)) (to_apply prune_unapplied map_sequences : Bool)
    (out : Option Container) : Except Err Container :=
  static_trace self offset axis1 axis2
    key_chains to_apply prune_unapplied map_sequences out

/-- Embedding of ContainerWithLinearAlgebra.static_matrix_transpose:
forwards to cont_multi_map_in_function with operation name
matrix_transpose, passing the conjugate flag and the full set of control
parameters. -/
def static_matrix_transpose (x : Container) (conjugate : Bool)
    (key_chains : Option (List Path)) (to_apply prune_unapplied map_sequences : Bool)
    (out : Option Container) : Except Err Container :=
  cont_multi_map_in_function ivyBackend "matrix_transpose"
    [("conjugate", b2i conjugate)]
    x [] key_chains to_apply prune_unapplied map_sequences out

/-- Embedding of the matrix_transpose instance method: forwards to
static_matrix_transpose with self as the primary container. -/
def matrix_transpose (self : Container) (conjugate : Bool)
    (key_chains : Option (List Path)) (to_apply prune_unapplied map_sequences : Bool)
    (out : Option Container) : Except Err Container :=
  static_matrix_transpose self conjugate
    key_chains to_apply prune_unapplied map_sequences out

/-- Embedding of ContainerWithLinearAlgebra.static_slogdet: forwards to
cont_multi_map_in_function with operation name slogdet.  The source method
has no out parameter, so no output container is forwarded. -/
def static_slogdet (x : Container)
    (key_chains : Option (List Path)) (to_apply prune_unapplied map_sequences : Bool) :
    Except Err Container :=
  cont_multi_map_in_function ivyBackend "slogdet" []
    x [] key_chains to_apply prune_unapplied map_sequences none

/-- Embedding of the slogdet instance method: forwards to static_slogdet
with self as the primary container (no out parameter in the source). -/
def slogdet (self : Container)
    (key_chains : Option (List Path)) (to_apply prune_unapplied map_sequences : Bool) :
    Except Err Container :=
  static_slogdet self key_chains to_apply prune_unapplied map_sequences

/-- Embedding of ContainerWithLinearAlgebra.static_vander: forwards to
cont_multi_map_in_function with operation name vander, passing N and
increasing and the full set of control parameters. -/
def static_vander (x : Container) (N : Option Int) (increasing : Bool)
    (key_chains : Option (List Path)) (to_apply prune_unapplied map_sequences : Bool)
    (out : Option Container) : Except Err Container :=
  cont_multi_map_in_function ivyBackend "vander"
    ((match N with
      | some n => [("N", n)]
      | none => []) ++ [("increasing", b2i increasing)])
    x [] key_chains to_apply prune_unapplied map_sequences out

/-- Embedding of the vander instance method of the source: its signature
has only N, increasing and out, so it forwards to static_vander with the
key-chain control parameters at their default values. -/
def vander (self : Container) (N : Option Int) (increasing : Bool)
    (out : Option Container) : Except Err Container :=
  static_vander self N increasing none true false false out

/-- Embedding of the tensorsolve instance method of the source.  The source
file defines no static_tensorsolve; the instance method body re-invokes
self.tensorsolve with self and x2 as positional arguments, which is one
positional argument more than the signature (self, x2, /, *, axes=None)
admits, so Python raises a TypeError at the inner call site before any
dispatch can happen.  The embedding records that observable result. -/
def tensorsolve (self : Container) (x2 : SecOp) (axes : Option Int) :
    Except Err Container :=
  Except.error (.typeError "tensorsolve() takes 2 positional arguments but 3 were given")

instance : DecidableEq (Except Err Container) :=
  fun x y =>
    match x, y with
    | .ok a, .ok b =>
        if h : a = b then .isTrue (by rw [h])
        else .isFalse (fun hh => h (Except.ok.inj hh))
    | .error a, .error b =>
        if h : a = b then .isTrue (by rw [h])
        else .isFalse (fun hh => h (Except.error.inj hh))
    | .ok _, .error _ => .isFalse (fun hh => Except.noConfusion hh)
    | .error _, .ok _ => .isFalse (fun hh => Except.noConfusion hh)

/-- Container of the matmul scenario of the spec: keys a and b holding the
matrices [[3,-1],[-1,3]] and [[2,1],[1,1]]. -/
def matmulScenarioIn : Container :=
  .cons "a" (.leaf (.matrix [[3, -1], [-1, 3]]))
    (.cons "b" (.leaf (.matrix [[2, 1], [1, 1]])) .nil)

/-- Expected result of the matmul scenario: keys a and b holding the
matrices [[10,-6],[-6,10]] and [[5,3],[3,2]]. -/
def matmulScenarioOut : Container :=
  .cons "a" (.leaf (.matrix [[10, -6], [-6, 10]]))
    (.cons "b" (.leaf (.matrix [[5, 3], [3, 2]])) .nil)

/-- Container of the trace scenario of the spec: key a holding the matrix
[[7,1,2],[1,3,5],[0,7,4]]. -/
def traceScenarioIn : Container :=
  .cons "a" (.leaf (.matrix [[7, 1, 2], [1, 3, 5], [0, 7, 4]])) .nil

/-- Container of the matrix_transpose scenario of the spec: key a holding
the matrix [[1,2],[3,4]]. -/
def transposeScenarioIn : Container :=
  .cons "a" (.leaf (.matrix [[1, 2], [3, 4]])) .nil

/-- Output container used by the writeback witness: key a holds a 2 by 2
zero matrix to be overwritten, key b holds a scalar that the call does not
touch. -/
def outWitness : Container :=
  .cons "a" (.leaf (.matrix [[0, 0], [0, 0]])) (.cons "b" (.leaf (.scalar 5)) .nil)

/-- Result container of the writeback witness: the transposed matrix has
been written under key a and the untouched scalar under key b is
retained. -/
def outWitnessRes : Container :=
  .cons "a" (.leaf (.matrix [[1, 3], [2, 4]])) (.cons "b" (.leaf (.scalar 5)) .nil)

/-- First path, in traversal order, at which the primary container and a
container secondary fail to match: a key of the primary missing from the
secondary, or a primary leaf paired with a secondary that is not a leaf. -/
def firstMisfit : Container → Container → Option Path
  | .leaf _, s => if s.isLeaf then none else some []
  | .nil, _ => none
  | .cons k v rest, s =>
      match lookupKey s k with
      | none => some [k]
      | some e =>
          match firstMisfit v e with
          | some p => some (k :: p)
          | none => firstMisfit rest s

/-- Whether the secondary container s matches the primary container x at
the path q: s must have a value at q, and a leaf of x at q must be paired
with a leaf of s. -/
def goodAt (x s : Container) (q : Path) : Bool :=
  match lookupPath s q, lookupPath x q with
  | none, _ => false
  | some e, some (.leaf _) => e.isLeaf
  | some _, _ => true

/-- Lookup through an optional container: a pruned-away container has no
values. -/
def lookupO : Option Container → Path → Option Container
  | none, _ => none
  | some r, q => lookupPath r q

/-- Input container of the selector-exclusion witness: matrices under the
keys a and b. -/
def selWitnessIn : Container :=
  .cons "a" (.leaf (.matrix [[1, 2], [3, 4]]))
    (.cons "b" (.leaf (.matrix [[5, 6], [7, 8]])) .nil)

/-- Result container of the selector-exclusion witness: the leaf under the
excluded key a is unchanged and the leaf under key b is transposed. -/
def selWitnessOut : Container :=
  .cons "a" (.leaf (.matrix [[1, 2], [3, 4]]))
    (.cons "b" (.leaf (.matrix [[5, 7], [6, 8]])) .nil)

/-- Primary container of the key-mismatch witness: leaves under the keys a
and b. -/
def mismatchPrimary : Container :=
  .cons "a" (.leaf (.scalar 1)) (.cons "b" (.leaf (.scalar 2)) .nil)

/-- Secondary container of the key-mismatch witness: it lacks the key b
that is present in the primary. -/
def mismatchSecondary : Container :=
  .cons "a" (.leaf (.scalar 3)) .nil

/-- Claim C6: for the container with a = [[3,-1],[-1,3]] and
b = [[2,1],[1,1]], applying matmul to the container with itself, through
the static form or the instance form, yields the container with
a = [[10,-6],[-6,10]] and b = [[5,3],[3,2]]. -/
theorem matmul_scenario :
    static_matmul matmulScenarioIn (.cont matmulScenarioIn)
        false false false false none true false false none = .ok matmulScenarioOut ∧
    matmul matmulScenarioIn (.cont matmulScenarioIn)
        false false false false none true false false none = .ok matmulScenarioOut :=
  ⟨rfl, rfl⟩

/-- Claim C9: for the container with a = [[7,1,2],[1,3,5],[0,7,4]],
applying trace with the default offset 0 (and default axes 0 and 1),
through the static form or the instance form, yields the container with
a = 14. -/
theorem trace_scenario :
    static_trace traceScenarioIn 0 0 1 none true false false none =
        .ok (.cons "a" (.leaf (.scalar 14)) .nil) ∧
    trace traceScenarioIn 0 0 1 none true false false none =
        .ok (.cons "a" (.leaf (.scalar 14)) .nil) :=
  ⟨rfl, rfl⟩

/-- Claim C10: for the container with a = [[1,2],[3,4]], applying
matrix_transpose, through the static form or the instance form, yields the
container with a = [[1,3],[2,4]]. -/
theorem matrix_transpose_scenario :
    static_matrix_transpose transposeScenarioIn false none true false false none =
        .ok (.cons "a" (.leaf (.matrix [[1, 3], [2, 4]])) .nil) ∧
    matrix_transpose transposeScenarioIn false none true false false none =
        .ok (.cons "a" (.leaf (.matrix [[1, 3], [2, 4]])) .nil) :=
  ⟨rfl, rfl⟩

/-- Claim C2: the tensorsolve instance method never dispatches to the
backend tensorsolve operation: for every container self, every secondary
argument x2 and every axes value, the re-invocation of itself with self as
an additional positional argument fails to match its own signature, so the
call raises a TypeError and no result container is ever returned. -/
theorem tensorsolve_always_raises :
    ∀ (self : Container) (x2 : SecOp) (axes : Option Int),
      tensorsolve self x2 axes =
        .error (.typeError "tensorsolve() takes 2 positional arguments but 3 were given") :=
  fun _ _ _ => rfl

/-- Claim C8: applying any operation to a completely empty container
returns an empty container, and the backend is never invoked: the result
is the same for every backend, every operation name and every keyword
list. -/
theorem empty_container_maps_to_empty :
    ∀ (B B' : Backend) (fn fn' : String) (kw kw' : Kw) (secs : List SecOp)
      (kc : Option (List Path)) (ta pu ms : Bool),
      cont_multi_map_in_function B fn kw .nil secs kc ta pu ms none = .ok .nil ∧
      cont_multi_map_in_function B fn kw .nil secs kc ta pu ms none =
        cont_multi_map_in_function B' fn' kw' .nil secs kc ta pu ms none :=
  fun _ _ _ _ _ _ _ _ _ _ _ => ⟨rfl, rfl⟩

/-- Mapping the identity operation over a container with no key-chain
selection reproduces the container itself, together with one write per
leaf. -/
theorem identApply (C : Container) : ∀ (ms : Bool) (pre : Path),
    ∃ w, mmApply ivyBackend "identity" [] none true false ms pre C [] = .ok (some C, w) := by
  induction C with
  | leaf a => intro ms pre; exact ⟨[(pre, a)], rfl⟩
  | nil => intro ms pre; exact ⟨[], rfl⟩
  | cons k v rest ihv ihr =>
      intro ms pre
      obtain ⟨wv, hv⟩ := ihv ms (pre ++ [k])
      obtain ⟨wr, hr⟩ := ihr ms pre
      exact ⟨wv ++ wr, by simp [mmApply, localize, hv, hr, consRes]⟩

/-- Claim C7: applying the mapper with the identity leaf operation returns
a container whose key paths (both the set and the insertion order, as the
ordered lists of leaf paths and of all key paths) are exactly those of the
input container. -/
theorem identity_preserves_structure :
    ∀ (C : Container), ∃ r,
      cont_multi_map_in_function ivyBackend "identity" [] C [] none true false false none =
        .ok r ∧
      leafPaths r = leafPaths C ∧ allPaths r = allPaths C := by
  intro C
  obtain ⟨w, h⟩ := identApply C false []
  exact ⟨C, by simp [cont_multi_map_in_function, h], rfl, rfl⟩

theorem lookupPath_cons_eq (k : String) (v rest : Container) (p : Path) :
    lookupPath (.cons k v rest) (k :: p) = lookupPath v p := by
  simp [lookupPath, lookupKey]

theorem lookupPath_cons_ne (k k' : String) (v rest : Container) (p : Path)
    (h : k' ≠ k) :
    lookupPath (.cons k v rest) (k' :: p) = lookupPath rest (k' :: p) := by
  have hk : ¬ k = k' := fun hh => h hh.symm
  simp [lookupPath, lookupKey, hk]

theorem leafAt_cons_nilpath (k : String) (v rest : Container) :
    leafAt (.cons k v rest) [] = none := rfl

theorem leafAt_cons_eq (k : String) (v rest : Container) (p : Path) :
    leafAt (.cons k v rest) (k :: p) = leafAt v p := by
  simp [leafAt, lookupPath_cons_eq]

theorem leafAt_cons_ne (k k' : String) (v rest : Container) (p : Path)
    (h : k' ≠ k) :
    leafAt (.cons k v rest) (k' :: p) = leafAt rest (k' :: p) := by
  simp [leafAt, lookupPath_cons_ne _ _ _ _ _ h]

/-- An in-place write at one path changes no leaf at any other path. -/
theorem setAt_preserves (o : Container) : ∀ (q : Path) (a : Arr) (o' : Container),
    setAt o q a = .ok o' → ∀ p, p ≠ q → leafAt o' p = leafAt o p := by
  induction o with
  | leaf old =>
      intro q a o' h p hp
      match q, h with
      | [], h =>
          by_cases hc : compatible old a = true
          · simp [setAt, hc] at h
            match p, hp with
            | k :: ps, _ => subst h; rfl
          · simp [setAt, hc] at h
      | _ :: _, h => simp [setAt] at h
  | nil =>
      intro q a o' h p hp
      match q, h with
      | [], h => simp [setAt] at h
      | _ :: _, h => simp [setAt] at h
  | cons k v rest ihv ihr =>
      intro q a o' h p hp
      match q, h with
      | [], h => simp [setAt] at h
      | k' :: p', h =>
          by_cases hk : k = k'
          · subst hk
            simp [setAt] at h
            match hv : setAt v p' a with
            | .error e => rw [hv] at h; simp at h
            | .ok v' =>
                rw [hv] at h; simp at h
                subst h
                match p, hp with
                | [], _ => rfl
                | k2 :: p2, hp =>
                    by_cases hk2 : k2 = k
                    · subst hk2
                      rw [leafAt_cons_eq, leafAt_cons_eq]
                      exact ihv p' a v' hv p2 (fun hh => hp (by rw [hh]))
                    · rw [leafAt_cons_ne _ _ _ _ _ hk2, leafAt_cons_ne _ _ _ _ _ hk2]
          · simp [setAt, hk] at h
            match hr : setAt rest (k' :: p') a with
            | .error e => rw [hr] at h; simp at h
            | .ok rest' =>
                rw [hr] at h; simp at h
                subst h
                match p, hp with
                | [], _ => rfl
                | k2 :: p2, hp =>
                    by_cases hk2 : k2 = k
                    · subst hk2
                      rw [leafAt_cons_eq, leafAt_cons_eq]
                    · rw [leafAt_cons_ne _ _ _ _ _ hk2, leafAt_cons_ne _ _ _ _ _ hk2]
                      exact ihr (k' :: p') a rest' hr (k2 :: p2) hp

/-- Performing a list of in-place writes changes no leaf at a path that
none of the writes targets. -/
theorem writeAll_preserves : ∀ (w : List (Path × Arr)) (o r : Container),
    writeAll o w = .ok r → ∀ p, (∀ a, (p, a) ∉ w) → leafAt r p = leafAt o p := by
  intro w
  induction w with
  | nil =>
      intro o r h p _
      simp [writeAll] at h
      rw [h]
  | cons qa w' ih =>
      intro o r h p hp
      obtain ⟨q, a⟩ := qa
      simp [writeAll] at h
      match hs : setAt o q a with
      | .error e => rw [hs] at h; simp at h
      | .ok o' =>
          rw [hs] at h; simp at h
          have hpq : p ≠ q := by
            intro hh
            exact hp a (by rw [hh]; exact List.mem_cons_self _ _)
          have h1 : leafAt r p = leafAt o' p :=
            ih o' r h p (fun b hb => hp b (List.mem_cons_of_mem _ hb))
          rw [h1, setAt_preserves o q a o' hs p hpq]

/-- Claim C4: when an output container is supplied, the returned container
is the supplied output itself after the in-place writes of the applied
results (writeAll of the traversal's write list), and every leaf of the
output at a path where the operation was not applied (a path targeted by
no write) retains its prior value. -/
theorem out_writeback :
    ∀ (B : Backend) (fn : String) (kw : Kw) (C : Container) (secs : List SecOp)
      (kc : Option (List Path)) (ta pu ms : Bool) (o r : Container),
      cont_multi_map_in_function B fn kw C secs kc ta pu ms (some o) = .ok r →
      ∃ res w, mmApply B fn kw kc ta pu ms [] C secs = .ok (res, w) ∧
        writeAll o w = .ok r ∧
        ∀ p, (∀ a, (p, a) ∉ w) → leafAt r p = leafAt o p := by
  intro B fn kw C secs kc ta pu ms o r h
  unfold cont_multi_map_in_function at h
  match hm : mmApply B fn kw kc ta pu ms [] C secs with
  | .error e => rw [hm] at h; simp at h
  | .ok (res, w) =>
      rw [hm] at h; simp at h
      exact ⟨res, w, rfl, h, fun p hp => writeAll_preserves w o r h p hp⟩

/-- Witness for claim C4 at a concrete call: mapping matrix_transpose over
the container with a = [[1,2],[3,4]] into a supplied output container. -/
theorem out_writeback_witness :
    ∃ res w,
      mmApply ivyBackend "matrix_transpose" [("conjugate", 0)] none true false false []
          transposeScenarioIn [] = .ok (res, w) ∧
      writeAll outWitness w = .ok outWitnessRes ∧
      ∀ p, (∀ a, (p, a) ∉ w) → leafAt outWitnessRes p = leafAt outWitness p :=
  out_writeback ivyBackend "matrix_transpose" [("conjugate", 0)] transposeScenarioIn []
    none true false false outWitness outWitnessRes rfl

/-- Traversal with one required container secondary succeeds on every
structure when no misfit path exists and the backend succeeds at every
leaf. -/
theorem mmApply_ok_of_noMisfit (B : Backend) (fn : String) (kw : Kw) (pu ms : Bool)
    (hB : ∀ a ls, ∃ r, B fn kw a ls = .ok r) :
    ∀ (C s : Container) (pre : Path), firstMisfit C s = none →
      ∃ res w, mmApply B fn kw none true pu ms pre C [.cont s] = .ok (res, w) := by
  intro C
  induction C with
  | leaf a =>
      intro s pre h
      match s, h with
      | .leaf b, _ =>
          obtain ⟨r, hr⟩ := hB a [b]
          exact ⟨some (.leaf r), [(pre, r)], by simp [mmApply, shouldApply, secLeaves, hr]⟩
      | .nil, h => simp [firstMisfit, Container.isLeaf] at h
      | .cons _ _ _, h => simp [firstMisfit, Container.isLeaf] at h
  | nil => intro s pre _; exact ⟨some .nil, [], rfl⟩
  | cons k v rest ihv ihr =>
      intro s pre h
      match hk : lookupKey s k with
      | none => simp [firstMisfit, hk] at h
      | some e =>
          match hv : firstMisfit v e with
          | some p => simp [firstMisfit, hk, hv] at h
          | none =>
              have h2 : firstMisfit rest s = none := by
                simpa [firstMisfit, hk, hv] using h
              obtain ⟨resv, wv, hmv⟩ := ihv e (pre ++ [k]) hv
              obtain ⟨resr, wr, hmr⟩ := ihr s pre h2
              exact ⟨some (consRes k resv resr), wv ++ wr,
                by simp [mmApply, localize, hk, hmv, hmr]⟩

/-- Traversal with one required container secondary halts with a
KeyMismatchError naming the first misfit path when one exists and the
backend succeeds at every leaf. -/
theorem mmApply_misfit_raises (B : Backend) (fn : String) (kw : Kw) (pu ms : Bool)
    (hB : ∀ a ls, ∃ r, B fn kw a ls = .ok r) :
    ∀ (C s : Container) (pre q : Path), firstMisfit C s = some q →
      mmApply B fn kw none true pu ms pre C [.cont s] =
        .error (.keyMismatch (pre ++ q)) := by
  intro C
  induction C with
  | leaf a =>
      intro s pre q h
      match s, h with
      | .leaf b, h => simp [firstMisfit, Container.isLeaf] at h
      | .nil, h =>
          simp [firstMisfit, Container.isLeaf] at h
          subst h
          simp [mmApply, shouldApply, secLeaves]
      | .cons k2 v2 r2, h =>
          simp [firstMisfit, Container.isLeaf] at h
          subst h
          simp [mmApply, shouldApply, secLeaves]
  | nil => intro s pre q h; simp [firstMisfit] at h
  | cons k v rest ihv ihr =>
      intro s pre q h
      match hk : lookupKey s k with
      | none =>
          simp [firstMisfit, hk] at h
          subst h
          simp [mmApply, localize, hk]
      | some e =>
          match hv : firstMisfit v e with
          | some p =>
              have hq : q = k :: p := by
                have := h
                simp [firstMisfit, hk, hv] at this
                exact this.symm
              subst hq
              have hrec := ihv e (pre ++ [k]) p hv
              simp [mmApply, localize, hk, hrec, List.append_assoc]
          | none =>
              have h2 : firstMisfit rest s = some q := by
                simpa [firstMisfit, hk, hv] using h
              obtain ⟨resv, wv, hmv⟩ :=
                mmApply_ok_of_noMisfit B fn kw pu ms hB v e (pre ++ [k]) hv
              have hrec := ihr s pre q h2
              simp [mmApply, localize, hk, hmv, hrec]

/-- When no misfit path exists, every key path of the primary is present
in the secondary. -/
theorem noMisfit_paths_present :
    ∀ (C s : Container), firstMisfit C s = none →
      ∀ p, p ∈ allPaths C → (lookupPath s p).isSome := by
  intro C
  induction C with
  | leaf a => intro s _ p hp; simp [allPaths] at hp
  | nil => intro s _ p hp; simp [allPaths] at hp
  | cons k v rest ihv ihr =>
      intro s h p hp
      match hk : lookupKey s k with
      | none => simp [firstMisfit, hk] at h
      | some e =>
          match hv : firstMisfit v e with
          | some _ => simp [firstMisfit, hk, hv] at h
          | none =>
              have h2 : firstMisfit rest s = none := by
                simpa [firstMisfit, hk, hv] using h
              simp [allPaths] at hp
              rcases hp with hp | ⟨p', hp', rfl⟩ | hp
              · subst hp; simp [lookupPath, hk]
              · have := ihv e hv p' hp'
                simpa [lookupPath, hk] using this
              · exact ihr s h2 p hp

/-- Every key path of a container starts with a top-level key of that
container. -/
theorem allPaths_head :
    ∀ (C : Container) (p : Path), p ∈ allPaths C →
      ∃ k' p', p = k' :: p' ∧ k' ∈ keysOf C := by
  intro C
  induction C with
  | leaf a => intro p hp; simp [allPaths] at hp
  | nil => intro p hp; simp [allPaths] at hp
  | cons k v rest _ ihr =>
      intro p hp
      simp [allPaths] at hp
      rcases hp with hp | ⟨p', hp', rfl⟩ | hp
      · subst hp; exact ⟨k, [], rfl, by simp [keysOf]⟩
      · exact ⟨k, p', rfl, by simp [keysOf]⟩
      · obtain ⟨k2, p2, rfl, hk2⟩ := ihr p hp
        exact ⟨k2, p2, rfl, by simp [keysOf, hk2]⟩

/-- The first misfit path of a well-formed primary mapping is one of its
key paths, and the secondary fails to match it there. -/
theorem misfit_is_mismatch :
    ∀ (C s : Container) (q : Path), wfC C = true → isMap C = true →
      firstMisfit C s = some q → q ∈ allPaths C ∧ goodAt C s q = false := by
  intro C
  induction C with
  | leaf a => intro s q _ hmap _; simp [isMap] at hmap
  | nil => intro s q _ _ h; simp [firstMisfit] at h
  | cons k v rest ihv ihr =>
      intro s q hwf _ h
      simp [wfC] at hwf
      obtain ⟨⟨⟨hnk, hwv⟩, hwr⟩, hmr⟩ := hwf
      match hk : lookupKey s k with
      | none =>
          simp [firstMisfit, hk] at h
          subst h
          refine ⟨by simp [allPaths], ?_⟩
          simp [goodAt, lookupPath, hk]
      | some e =>
          match hv : firstMisfit v e with
          | some p =>
              have hq : q = k :: p := by
                have := h
                simp [firstMisfit, hk, hv] at this
                exact this.symm
              subst hq
              match v, hv, hwv with
              | .leaf a2, hv, _ =>
                  have hp0 : p = [] ∧ e.isLeaf = false := by
                    by_cases he : e.isLeaf = true
                    · simp [firstMisfit, he] at hv
                    · have he' : e.isLeaf = false := by
                        cases hb : e.isLeaf
                        · rfl
                        · exact absurd hb he
                      simp [firstMisfit, he'] at hv
                      exact ⟨hv, he'⟩
                  obtain ⟨hp0, he⟩ := hp0
                  subst hp0
                  refine ⟨by simp [allPaths], ?_⟩
                  simp [goodAt, lookupPath, lookupKey, hk, he]
              | .nil, hv, _ => simp [firstMisfit] at hv
              | .cons k2 v2 r2, hv, hwv =>
                  obtain ⟨hp1, hp2⟩ := ihv e p hwv rfl hv
                  refine ⟨List.mem_append_left _
                    (List.mem_cons_of_mem _ (List.mem_map_of_mem _ hp1)), ?_⟩
                  have hs1 : lookupPath s (k :: p) = lookupPath e p := by
                    simp [lookupPath, hk]
                  have hx1 : lookupPath (Container.cons k (Container.cons k2 v2 r2) rest)
                      (k :: p) = lookupPath (Container.cons k2 v2 r2) p :=
                    lookupPath_cons_eq _ _ _ _
                  unfold goodAt
                  rw [hs1, hx1]
                  exact hp2
          | none =>
              have h2 : firstMisfit rest s = some q := by
                simpa [firstMisfit, hk, hv] using h
              obtain ⟨hq1, hq2⟩ := ihr s q hwr hmr h2
              obtain ⟨k2, p2, rfl, hk2⟩ := allPaths_head rest _ hq1
              have hk2k : k2 ≠ k := fun hh => hnk (hh ▸ hk2)
              refine ⟨List.mem_append_right _ hq1, ?_⟩
              have hx : lookupPath (Container.cons k v rest) (k2 :: p2) =
                  lookupPath rest (k2 :: p2) :=
                lookupPath_cons_ne _ _ _ _ _ hk2k
              unfold goodAt
              rw [hx]
              exact hq2

/-- Claim C3: when matching is required (to_apply true) and the secondary
container is missing a key path that is present in the primary, applying a
binary operation whose backend never fails raises KeyMismatchError naming
a path of the primary at which the secondary fails to match, rather than
skipping the path silently or deferring the failure to the backend
call. -/
theorem required_missing_key_raises (B : Backend) (fn : String) (kw : Kw)
    (pu ms : Bool) (x s : Container) (hwf : wfC x = true) (hmap : isMap x = true)
    (hB : ∀ a ls, ∃ r, B fn kw a ls = .ok r)
    (hmiss : ∃ p, p ∈ allPaths x ∧ lookupPath s p = none) :
    ∃ q, q ∈ allPaths x ∧ goodAt x s q = false ∧
      cont_multi_map_in_function B fn kw x [.cont s] none true pu ms none =
        .error (.keyMismatch q) := by
  match hfm : firstMisfit x s with
  | none =>
      exfalso
      obtain ⟨p, hp, hnone⟩ := hmiss
      have := noMisfit_paths_present x s hfm p hp
      rw [hnone] at this
      simp at this
  | some q =>
      obtain ⟨hq1, hq2⟩ := misfit_is_mismatch x s q hwf hmap hfm
      have hm := mmApply_misfit_raises B fn kw pu ms hB x s [] q hfm
      exact ⟨q, hq1, hq2, by simp [cont_multi_map_in_function, hm]⟩

/-- Witness for claim C3 at a concrete pair of containers: the primary has
the keys a and b, the secondary lacks b, and the call with a never-failing
backend reports KeyMismatchError. -/
theorem required_missing_key_raises_witness :
    ∃ q, q ∈ allPaths mismatchPrimary ∧ goodAt mismatchPrimary mismatchSecondary q = false ∧
      cont_multi_map_in_function okBackend "op" [] mismatchPrimary
          [.cont mismatchSecondary] none true false false none =
        .error (.keyMismatch q) :=
  required_missing_key_raises okBackend "op" [] false false
    mismatchPrimary mismatchSecondary (by decide) (by decide)
    (fun a ls => ⟨a, rfl⟩) ⟨["b"], by decide, by decide⟩

theorem lookupKey_none_of_not_mem :
    ∀ (c : Container) (k : String), k ∉ keysOf c → lookupKey c k = none := by
  intro c
  induction c with
  | leaf a => intro k _; rfl
  | nil => intro k _; rfl
  | cons k2 v2 r2 _ ihr =>
      intro k hk
      simp [keysOf] at hk
      obtain ⟨hk1, hk2⟩ := hk
      have : ¬ k2 = k := fun hh => hk1 hh.symm
      simp [lookupKey, this]
      exact ihr k hk2

theorem lookupO_getD (o : Option Container) (k2 : String) (p2 : Path) :
    lookupPath (o.getD .nil) (k2 :: p2) = lookupO o (k2 :: p2) := by
  cases o <;> rfl

theorem consRes_lookup_ne (k : String) (ov orest : Option Container)
    (k2 : String) (p2 : Path) (h : k2 ≠ k) :
    lookupPath (consRes k ov orest) (k2 :: p2) = lookupO orest (k2 :: p2) := by
  cases ov with
  | none => simp [consRes, lookupO_getD]
  | some v2 =>
      simp only [consRes]
      rw [lookupPath_cons_ne _ _ _ _ _ h]
      exact lookupO_getD _ _ _

/-- Every leaf path of a container whose top level is a mapping starts
with a top-level key of that container. -/
theorem leafPaths_head :
    ∀ (C : Container), wfC C = true → isMap C = true → ∀ p, p ∈ leafPaths C →
      ∃ k' p', p = k' :: p' ∧ k' ∈ keysOf C := by
  intro C
  induction C with
  | leaf a => intro _ hm; simp [isMap] at hm
  | nil => intro _ _ p hp; simp [leafPaths] at hp
  | cons k v rest _ ihr =>
      intro hwf _ p hp
      simp [wfC] at hwf
      obtain ⟨⟨⟨_, _⟩, hwr⟩, hmr⟩ := hwf
      simp [leafPaths] at hp
      rcases hp with ⟨p', _, rfl⟩ | hp
      · exact ⟨k, p', rfl, by simp [keysOf]⟩
      · obtain ⟨k2, p2, rfl, hk2⟩ := ihr hwr hmr p hp
        refine ⟨k2, p2, rfl, ?_⟩
        simp [keysOf]
        exact Or.inr hk2

/-- A unary traversal under a selector can only prune a value away
entirely when pruning is on and the value is a bare leaf at an excluded
path. -/
theorem mmApply_unary_none (B : Backend) (fn : String) (kw : Kw) (P : List Path)
    (pu ms : Bool) (pre : Path) :
    ∀ (C : Container) (w : List (Path × Arr)),
      mmApply B fn kw (some P) false pu ms pre C [] = .ok (none, w) →
      pu = true ∧ ∃ a, C = .leaf a ∧ pre ∈ P := by
  intro C w h
  match C with
  | .leaf a =>
      by_cases hp : pre ∈ P
      · have hsa : shouldApply (some P) false pre = false := by simp [shouldApply, hp]
        simp [mmApply, hsa, skipRes] at h
        match pu, h with
        | true, _ => exact ⟨rfl, a, rfl, hp⟩
        | false, h => simp at h
      · have hsa : shouldApply (some P) false pre = true := by simp [shouldApply, hp]
        simp [mmApply, hsa, secLeaves] at h
        match hb : B fn kw a [] with
        | .ok r => rw [hb] at h; simp at h
        | .error e => rw [hb] at h; simp at h
  | .nil => simp [mmApply] at h
  | .cons k v rest =>
      simp [mmApply, localize] at h
      match hv : mmApply B fn kw (some P) false pu ms (pre ++ [k]) v [] with
      | .error e => rw [hv] at h; simp at h
      | .ok (ov, wv) =>
          rw [hv] at h
          match hr : mmApply B fn kw (some P) false pu ms pre rest [] with
          | .error e => rw [hr] at h; simp at h
          | .ok (orest, wr) => rw [hr] at h; simp at h

/-- A unary traversal under a selector introduces no top-level key that
the input container does not have. -/
theorem mmApply_unary_keys (B : Backend) (fn : String) (kw : Kw) (P : List Path)
    (pu ms : Bool) :
    ∀ (C : Container) (pre : Path) (r : Container) (w : List (Path × Arr)),
      mmApply B fn kw (some P) false pu ms pre C [] = .ok (some r, w) →
      ∀ k', k' ∈ keysOf r → k' ∈ keysOf C := by
  intro C
  induction C with
  | leaf a =>
      intro pre r w h k' hk'
      by_cases hp : pre ∈ P
      · have hsa : shouldApply (some P) false pre = false := by simp [shouldApply, hp]
        simp [mmApply, hsa, skipRes] at h
        obtain ⟨⟨_, hlr⟩, _⟩ := h
        rw [← hlr] at hk'
        simp [keysOf] at hk'
      · have hsa : shouldApply (some P) false pre = true := by simp [shouldApply, hp]
        simp [mmApply, hsa, secLeaves] at h
        match hb : B fn kw a [] with
        | .ok b =>
            rw [hb] at h; simp at h
            rw [← h.1] at hk'
            simp [keysOf] at hk'
        | .error e => rw [hb] at h; simp at h
  | nil =>
      intro pre r w h k' hk'
      simp [mmApply] at h
      rw [← h.1] at hk'
      simp [keysOf] at hk'
  | cons k v rest _ ihr =>
      intro pre r w h k' hk'
      simp [mmApply, localize] at h
      match hv : mmApply B fn kw (some P) false pu ms (pre ++ [k]) v [] with
      | .error e => rw [hv] at h; simp at h
      | .ok (ov, wv) =>
          rw [hv] at h
          match hr : mmApply B fn kw (some P) false pu ms pre rest [] with
          | .error e => rw [hr] at h; simp at h
          | .ok (orest, wr) =>
              rw [hr] at h; simp at h
              rw [← h.1] at hk'
              have hsub : ∀ k2, k2 ∈ keysOf (orest.getD .nil) → k2 ∈ keysOf rest := by
                intro k2 hk2
                match orest, hk2 with
                | none, hk2 => simp [keysOf] at hk2
                | some rc, hk2 => exact ihr pre rc wr hr k2 hk2
              cases ov with
              | none =>
                  simp [consRes] at hk'
                  exact List.mem_cons_of_mem _ (hsub k' hk')
              | some v2 =>
                  simp [consRes, keysOf] at hk'
                  rcases hk' with rfl | hk'
                  · exact List.mem_cons_self _ _
                  · exact List.mem_cons_of_mem _ (hsub k' hk')

/-- Main selector lemma: a unary traversal with key-chain set P and
to_apply false leaves excluded leaves (paths in P) unchanged or pruned
according to prune_unapplied, and replaces every other leaf by the
backend's result. -/
theorem mmApply_unary_selector (B : Backend) (fn : String) (kw : Kw) (P : List Path)
    (pu ms : Bool) :
    ∀ (C : Container), wfC C = true →
      ∀ (pre : Path) (res : Option Container) (w : List (Path × Arr)),
        mmApply B fn kw (some P) false pu ms pre C [] = .ok (res, w) →
        ∀ q, q ∈ leafPaths C →
          ((pre ++ q) ∈ P →
            (pu = true → lookupO res q = none) ∧
            (pu = false → lookupO res q = lookupPath C q)) ∧
          ((pre ++ q) ∉ P →
            ∃ a b, lookupPath C q = some (.leaf a) ∧ B fn kw a [] = .ok b ∧
              lookupO res q = some (.leaf b)) := by
  intro C
  induction C with
  | leaf a =>
      intro _ pre res w h q hq
      simp [leafPaths] at hq
      subst hq
      rw [List.append_nil]
      by_cases hp : pre ∈ P
      · have hsa : shouldApply (some P) false pre = false := by simp [shouldApply, hp]
        simp [mmApply, hsa] at h
        obtain ⟨hres, hw⟩ := h
        subst hres
        refine ⟨fun _ => ⟨fun hpu => ?_, fun hpu => ?_⟩, fun hcon => absurd hp hcon⟩
        · subst hpu; simp [skipRes, lookupO]
        · subst hpu; simp [skipRes, lookupO, lookupPath]
      · have hsa : shouldApply (some P) false pre = true := by simp [shouldApply, hp]
        simp [mmApply, hsa, secLeaves] at h
        match hb : B fn kw a [] with
        | .error e => rw [hb] at h; simp at h
        | .ok b =>
            rw [hb] at h; simp at h
            obtain ⟨hres, hw⟩ := h
            subst hres
            exact ⟨fun hcon => absurd hcon hp, fun _ => ⟨a, b, rfl, hb, rfl⟩⟩
  | nil =>
      intro _ pre res w h q hq
      simp [leafPaths] at hq
  | cons k v rest ihv ihr =>
      intro hwf pre res w h q hq
      simp [wfC] at hwf
      obtain ⟨⟨⟨hnk, hwv⟩, hwr⟩, hmr⟩ := hwf
      simp [mmApply, localize] at h
      match hv : mmApply B fn kw (some P) false pu ms (pre ++ [k]) v [] with
      | .error e => rw [hv] at h; simp at h
      | .ok (ov, wv) =>
          rw [hv] at h
          match hr : mmApply B fn kw (some P) false pu ms pre rest [] with
          | .error e => rw [hr] at h; simp at h
          | .ok (orest, wr) =>
              rw [hr] at h; simp at h
              obtain ⟨hres, hw⟩ := h
              subst hres
              simp [leafPaths] at hq
              rcases hq with ⟨q', hq', rfl⟩ | hq
              · cases ov with
                | some v2 =>
                    have ihv' := ihv hwv (pre ++ [k]) (some v2) wv hv q' hq'
                    have e1 : lookupO (some (consRes k (some v2) orest)) (k :: q') =
                        lookupO (some v2) q' := by
                      simp [lookupO, consRes, lookupPath_cons_eq]
                    have e2 : lookupPath (Container.cons k v rest) (k :: q') =
                        lookupPath v q' := lookupPath_cons_eq _ _ _ _
                    rw [List.append_cons, e1, e2]
                    exact ihv'
                | none =>
                    obtain ⟨hpu, a, hva, hpre⟩ :=
                      mmApply_unary_none B fn kw P pu ms (pre ++ [k]) v wv hv
                    subst hpu
                    subst hva
                    simp [leafPaths] at hq'
                    subst hq'
                    refine ⟨fun _ => ⟨fun _ => ?_, fun hpu0 => by simp at hpu0⟩,
                            fun hcon => absurd hpre hcon⟩
                    simp [lookupO, consRes]
                    rw [lookupO_getD]
                    cases orest with
                    | none => rfl
                    | some rc =>
                        have hsub := mmApply_unary_keys B fn kw P true ms rest pre rc wr hr
                        have hknot : k ∉ keysOf rc := fun hh => hnk (hsub k hh)
                        simp [lookupO, lookupPath, lookupKey_none_of_not_mem rc k hknot]
              · obtain ⟨k2, p2, hq2, hk2⟩ := leafPaths_head rest hwr hmr q hq
                subst hq2
                have hk2k : k2 ≠ k := fun hh => hnk (hh ▸ hk2)
                have e1 : lookupO (some (consRes k ov orest)) (k2 :: p2) =
                    lookupO orest (k2 :: p2) := by
                  simp only [lookupO]
                  exact consRes_lookup_ne k ov orest k2 p2 hk2k
                have e2 : lookupPath (Container.cons k v rest) (k2 :: p2) =
                    lookupPath rest (k2 :: p2) := lookupPath_cons_ne _ _ _ _ _ hk2k
                rw [e1, e2]
                exact ihr hwr pre orest wr hr (k2 :: p2) hq

/-- Claim C5: calling an operation on a well-formed container with
key_chains P and to_apply false leaves the leaves at paths in P unmodified
in the result when prune_unapplied is false, omits them entirely when
prune_unapplied is true, and replaces every leaf at a path outside P by
the backend operation's result. -/
theorem selector_exclusion (B : Backend) (fn : String) (kw : Kw) (C : Container)
    (P : List Path) (pu ms : Bool) (r : Container)
    (hwf : wfC C = true) (hmap : isMap C = true)
    (h : cont_multi_map_in_function B fn kw C [] (some P) false pu ms none = .ok r) :
    ∀ p, p ∈ leafPaths C →
      (p ∈ P → (pu = true → lookupPath r p = none) ∧
               (pu = false → lookupPath r p = lookupPath C p)) ∧
      (p ∉ P → ∃ a b, lookupPath C p = some (.leaf a) ∧ B fn kw a [] = .ok b ∧
        lookupPath r p = some (.leaf b)) := by
  intro p hp
  unfold cont_multi_map_in_function at h
  match hm : mmApply B fn kw (some P) false pu ms [] C [] with
  | .error e => rw [hm] at h; simp at h
  | .ok (res, w) =>
      rw [hm] at h; simp at h
      match res, hm, h with
      | none, hm, _ =>
          obtain ⟨_, a, hca, _⟩ := mmApply_unary_none B fn kw P pu ms [] C w hm
          rw [hca] at hmap; simp [isMap] at hmap
      | some rc, hm, h =>
          have h' : rc = r := by simpa using h
          subst h'
          have main := mmApply_unary_selector B fn kw P pu ms C hwf [] (some rc) w hm p hp
          simpa [lookupO] using main

/-- Witness for claim C5 at a concrete call: mapping matrix_transpose with
key_chains selecting the key a and to_apply false transposes the leaf
under the non-selected key b. -/
theorem selector_exclusion_witness :
    ∃ a b, lookupPath selWitnessIn ["b"] = some (.leaf a) ∧
      ivyBackend "matrix_transpose" [("conjugate", 0)] a [] = .ok b ∧
      lookupPath selWitnessOut ["b"] = some (.leaf b) :=
  (selector_exclusion ivyBackend "matrix_transpose" [("conjugate", 0)] selWitnessIn
      [["a"]] false false selWitnessOut (by decide) rfl rfl ["b"] (by decide)).2
    (by decide)

/-- Claim C1, counterexample: the claim fails at the operation
tensorsolve.  At a concrete container, the tensorsolve instance method
does not return the result of forwarding self to the generic mapping
utility with operation name tensorsolve (it raises a TypeError without
dispatching), so not every public operation comes as a pair that forwards
to cont_multi_map_in_function. -/
theorem tensorsolve_does_not_forward :
    tensorsolve matmulScenarioIn (.cont matmulScenarioIn) none ≠
      cont_multi_map_in_function ivyBackend "tensorsolve" []
        matmulScenarioIn [.cont matmulScenarioIn] none true false false none := by
  decide

/-- Claim C1, amended: each cited operation other than tensorsolve comes
as a paired static form and instance form that both forward to the single
generic mapping utility cont_multi_map_in_function, and the instance form
returns the same result as the static form applied with self as the
primary container; slogdet forwards without an output container (its
source signature has no out parameter) and the vander instance form
forwards with the key-chain control parameters fixed at their default
values.  tensorsolve is the exception: it has only an instance form, which
raises a TypeError instead of forwarding. -/
theorem dispatch_pairs_forward :
    (∀ x1 x2 t1 t2 a1 a2 kc ta pu ms o,
      matmul x1 x2 t1 t2 a1 a2 kc ta pu ms o =
        static_matmul x1 x2 t1 t2 a1 a2 kc ta pu ms o ∧
      static_matmul x1 x2 t1 t2 a1 a2 kc ta pu ms o =
        cont_multi_map_in_function ivyBackend "matmul"
          [("transpose_a", b2i t1), ("transpose_b", b2i t2),
           ("adjoint_a", b2i a1), ("adjoint_b", b2i a2)]
          x1 [x2] kc ta pu ms o) ∧
    (∀ x off ax1 ax2 kc ta pu ms o,
      trace x off ax1 ax2 kc ta pu ms o = static_trace x off ax1 ax2 kc ta pu ms o ∧
      static_trace x off ax1 ax2 kc ta pu ms o =
        cont_multi_map_in_function ivyBackend "trace"
          [("offset", off), ("axis1", ax1), ("axis2", ax2)]
          x [] kc ta pu ms o) ∧
    (∀ x cj kc ta pu ms o,
      matrix_transpose x cj kc ta pu ms o = static_matrix_transpose x cj kc ta pu ms o ∧
      static_matrix_transpose x cj kc ta pu ms o =
        cont_multi_map_in_function ivyBackend "matrix_transpose"
          [("conjugate", b2i cj)] x [] kc ta pu ms o) ∧
    (∀ x kc ta pu ms,
      slogdet x kc ta pu ms = static_slogdet x kc ta pu ms ∧
      static_slogdet x kc ta pu ms =
        cont_multi_map_in_function ivyBackend "slogdet" [] x [] kc ta pu ms none) ∧
    (∀ x n i kc ta pu ms o,
      static_vander x n i kc ta pu ms o =
        cont_multi_map_in_function ivyBackend "vander"
          ((match n with
            | some nv => [("N", nv)]
            | none => []) ++ [("increasing", b2i i)])
          x [] kc ta pu ms o) ∧
    (∀ self n i o, vander self n i o = static_vander self n i none true false false o) ∧
    (∀ (self : Container) (x2 : SecOp) (axes : Option Int),
      ∃ msg, tensorsolve self x2 axes = Except.error (.typeError msg)) := by
  refine ⟨?_, ?_, ?_, ?_, ?_, ?_, ?_⟩ <;> intros <;>
    first
      | exact ⟨rfl, rfl⟩
      | exact rfl
      | exact ⟨_, rfl⟩

end IvyLA
